import Mathlib

/-!
Shallow embedding of the core of `procs` (a process-listing tool):
the keyword search engine, ANSI-aware truncation, command-path
abbreviation, the per-OS command column, and theme resolution,
transcribed from `src/util.rs` and `src/columns/command.rs`.
-/

namespace Procs

/-! ## Search engine (`src/util.rs`, `find_partial` / `find_exact`) -/

inductive ConfigSearchLogic
  | And
  | Or
  | Nand
  | Nor
deriving DecidableEq

inductive ConfigSearchCase
  | Smart
  | Insensitive
  | Sensitive
deriving DecidableEq

/-- Rust `char::to_ascii_lowercase`: maps only ASCII uppercase letters. -/
def ascii_lower_char (c : Char) : Char :=
  if 'A' ≤ c ∧ c ≤ 'Z' then Char.ofNat (c.toNat + 32) else c

/-- Rust `str::to_ascii_lowercase`: apply `ascii_lower_char` to every
character. -/
def to_ascii_lowercase (s : String) : String :=
  String.mk (s.data.map ascii_lower_char)

/-- A column, as the generic search functions in `util.rs` see it:
an opaque pair of per-process match predicates
(`&dyn Column`, methods `find_partial(pid, keyword, content_to_lowercase)`
and `find_exact`). -/
structure Column where
  find_partial : Int → String → Bool → Bool
  find_exact : Int → String → Bool → Bool

/-- The per-keyword case decision shared by `find_partial` and `find_exact`
(`util.rs` lines 72–76 / 118–122): Smart folds iff the keyword equals its
ASCII-lowercased form, Insensitive always folds, Sensitive never. -/
def ignore_case_of (cse : ConfigSearchCase) (keyword : String) : Bool :=
  match cse with
  | ConfigSearchCase.Smart => keyword == to_ascii_lowercase keyword
  | ConfigSearchCase.Insensitive => true
  | ConfigSearchCase.Sensitive => false

/-- `util.rs::find_partial`: fold per-keyword hits (any column matches)
into an accumulator chosen by the combinator. -/
def find_partial (columns : List Column) (pid : Int) (keyword : List String)
    (logic : ConfigSearchLogic) (cse : ConfigSearchCase) : Bool :=
  let init : Bool :=
    match logic with
    | ConfigSearchLogic.And => true
    | ConfigSearchLogic.Or => false
    | ConfigSearchLogic.Nand => true
    | ConfigSearchLogic.Nor => false
  List.foldl
    (fun ret w =>
      let keyword_lowercase := to_ascii_lowercase w
      let ignore_case := ignore_case_of cse w
      let kw := if ignore_case then keyword_lowercase else w
      let hit := columns.any (fun c => Column.find_partial c pid kw ignore_case)
      match logic with
      | ConfigSearchLogic.And => ret && hit
      | ConfigSearchLogic.Or => ret || hit
      | ConfigSearchLogic.Nand => ret && hit
      | ConfigSearchLogic.Nor => ret || hit)
    init keyword

/-- `util.rs::find_exact`: identical to `find_partial` except that each
column is asked for an exact match. -/
def find_exact (columns : List Column) (pid : Int) (keyword : List String)
    (logic : ConfigSearchLogic) (cse : ConfigSearchCase) : Bool :=
  let init : Bool :=
    match logic with
    | ConfigSearchLogic.And => true
    | ConfigSearchLogic.Or => false
    | ConfigSearchLogic.Nand => true
    | ConfigSearchLogic.Nor => false
  List.foldl
    (fun ret w =>
      let keyword_lowercase := to_ascii_lowercase w
      let ignore_case := ignore_case_of cse w
      let kw := if ignore_case then keyword_lowercase else w
      let hit := columns.any (fun c => Column.find_exact c pid kw ignore_case)
      match logic with
      | ConfigSearchLogic.And => ret && hit
      | ConfigSearchLogic.Or => ret || hit
      | ConfigSearchLogic.Nand => ret && hit
      | ConfigSearchLogic.Nor => ret || hit)
    init keyword

/-- Rust `str::contains` on the underlying character sequences: `needle`
occurs contiguously somewhere in `hay`. -/
def containsSubstring (hay needle : List Char) : Bool :=
  (List.range (hay.length + 1)).any (fun i => needle.isPrefixOf (hay.drop i))

/-- Modelled from the spec: the column-default match predicates
(`column_default` macro in `src/column.rs`, not under `src/`), per §4.1:
`find_partial(id, needle, fold_case)` is true iff the raw value stored for
`id` contains `needle` as a substring, case-folding both sides first when
`fold_case` is set; `find_exact` is the same with equality. -/
def column_of_raw (raw : Int → Option String) : Column where
  find_partial := fun pid needle fold =>
    match raw pid with
    | none => false
    | some v =>
      let v := if fold then to_ascii_lowercase v else v
      let n := if fold then to_ascii_lowercase needle else needle
      containsSubstring v.toList n.toList
  find_exact := fun pid needle fold =>
    match raw pid with
    | none => false
    | some v =>
      let v := if fold then to_ascii_lowercase v else v
      let n := if fold then to_ascii_lowercase needle else needle
      v == n

/-! ## ANSI-aware truncation (`src/util.rs`, `truncate`)

The character-width table comes from the external `unicode_width` crate,
so `truncate` is parameterised by the width function `wOf`
(`UnicodeWidthChar::width(c).unwrap_or_default()`). Strings are modelled
as their character sequences, matching `s.chars()`. -/

/-- The escape character `'\u{1b}'`. -/
def escChar : Char := Char.ofNat 0x1b

/-- The loop of `util.rs::truncate`: state is the running non-escape
width `total`, the two-state automaton flag `escape`, and the accumulated
output `buf`; returns `some buf` when the width budget is exceeded
(Rust's `ret = Some(buf); break`) and `none` when the whole input fits. -/
def truncateGo (wOf : Char → Nat) (width : Nat) :
    List Char → Nat → Bool → List Char → Option (List Char)
  | [], _, _, _ => none
  | c :: rest, total, escape, buf =>
    let escape1 := if c = escChar then true else escape
    if escape1 then
      truncateGo wOf width rest total (if c = 'm' then false else escape1) (buf ++ [c])
    else
      if width < total + wOf c then some buf
      else truncateGo wOf width rest (total + wOf c) escape1 (buf ++ [c])

/-- `util.rs::truncate`: run the loop; if the budget was never exceeded
the original string is returned unchanged (`Cow::Borrowed`). -/
def truncate (wOf : Char → Nat) (s : List Char) (width : Nat) : List Char :=
  (truncateGo wOf width s 0 false []).getD s

/-- Display width of a character sequence under the same two-state
automaton: bytes inside an escape sequence contribute nothing. -/
def displayWidthGo (wOf : Char → Nat) : List Char → Bool → Nat
  | [], _ => 0
  | c :: rest, escape =>
    let escape1 := if c = escChar then true else escape
    if escape1 then displayWidthGo wOf rest (if c = 'm' then false else escape1)
    else wOf c + displayWidthGo wOf rest escape1

/-- Display width of a string (start in the `Normal` state). -/
def displayWidth (wOf : Char → Nat) (s : List Char) : Nat :=
  displayWidthGo wOf s false

/-- The `unicode_width` table restricted to the characters exercised
here: control characters report no width (`None`, defaulted to 0) and
the printable ASCII range has width 1. -/
def charWidth (c : Char) : Nat :=
  if c.toNat < 0x20 ∨ c.toNat = 0x7f then 0 else 1

/-! ## Path abbreviation (`src/util.rs`, `truncate_nix_store_path`,
`truncate_home_path`, `truncate_command_path`, `format_command`)

Rust `std::path::Path` is modelled by its parsed component view: a flag
for a leading root plus the list of normal components (`Components`
skips empty and interior `.` segments). `HOME` is an explicit
parameter, since `env::var` reads the process environment. -/

structure RsPath where
  absolute : Bool
  comps : List String
deriving DecidableEq

/-- Split a character sequence at every `'/'` (keeping empty
segments, like splitting on a single-character separator). -/
def splitSlash (l : List Char) : List (List Char) :=
  l.foldr
    (fun c acc =>
      if c = '/' then [] :: acc
      else
        match acc with
        | h :: t => (c :: h) :: t
        | [] => [[c]])
    [[]]

/-- Parse a string the way `Path::components` views it (for paths
without a leading `.` segment): a leading `/` is the root, and the
normal components are the nonempty, non-`.` segments between slashes. -/
def parsePath (s : String) : RsPath :=
  { absolute :=
      match s.data with
      | '/' :: _ => true
      | _ => false
    comps :=
      ((splitSlash s.data).map String.mk).filter (fun t => ¬ (t = "" ∨ t = ".")) }

/-- `Path::strip_prefix`: succeeds iff `base`'s component sequence
(root included) is a leading part of `p`'s, returning the remaining
components. -/
def stripPathPre (p base : RsPath) : Option (List String) :=
  if base.absolute = p.absolute ∧ base.comps.isPrefixOf p.comps then
    some (p.comps.drop base.comps.length)
  else none

/-- `Path::display` of a relative path built from components:
components joined by `/`. -/
def joinComps (l : List String) : String :=
  String.intercalate "/" l

/-- `util.rs::truncate_home_path`: if `HOME` is set and the input path
starts with it, replace that prefix with `~/`. -/
def truncate_home_path (home : Option String) (input : String) : String :=
  match home with
  | some home_dir =>
    match stripPathPre (parsePath input) (parsePath home_dir) with
    | some relative_path => "~/" ++ joinComps relative_path
    | none => input
  | none => input

/-- Rust `str::rsplit_once(pat)`: split at the last occurrence of `pat`,
returning the text before and after it. -/
def rsplit_once (s pat : String) : Option (String × String) :=
  match (List.range (s.toList.length + 1)).reverse.find?
      (fun i => pat.toList.isPrefixOf (s.toList.drop i)) with
  | some i =>
    some (String.mk (s.toList.take i), String.mk (s.toList.drop (i + pat.toList.length)))
  | none => none

/-- Rust `str::split_whitespace().next()`: the first maximal run of
non-whitespace characters, if any. -/
def splitWhitespaceNext (s : String) : Option String :=
  let l := s.toList.dropWhile (fun c => c.isWhitespace)
  let t := l.takeWhile (fun c => ¬ c.isWhitespace)
  if t = [] then none else some (String.mk t)

/-- `util.rs::truncate_nix_store_path`: shorten a `/nix/store/…` path. -/
def truncate_nix_store_path (input : String) : String :=
  match stripPathPre (parsePath input) (parsePath "/nix/store/") with
  | some components =>
    if 2 ≤ components.length then
      let filename := (components.getLast?).getD ""
      let innerres :=
        match rsplit_once filename "-" with
        | some last_part =>
          let cmd := (splitWhitespaceNext last_part.2).getD last_part.2
          last_part.1 ++ cmd
        | none => filename
      match rsplit_once innerres "/bin/" with
      | some last_part =>
        let cmd := (splitWhitespaceNext last_part.2).getD last_part.2
        last_part.1 ++ cmd
      | none => "/nix/store/..." ++ filename
    else input
  | none => input

/-- `util.rs::truncate_command_path`: store-path shortening, then
home-directory shortening. -/
def truncate_command_path (home : Option String) (input : String) : String :=
  truncate_home_path home (truncate_nix_store_path input)

/-- `util.rs::format_command`: identity unless abbreviation was
requested. -/
def format_command (cmd : String) (abbr : Bool) (home : Option String) : String :=
  if abbr then truncate_command_path home cmd else cmd

/-! ## Command column (`src/columns/command.rs`)

One `add` function per OS backend. Each backend's snapshot type carries
exactly the fields that backend's `add` reads; fallible reads
(`cmdline()`, `ptr_to_cstr`) are `Option`s. `add` inserts a formatted
and a raw string; it is modelled as the pair
(formatted value, raw value) stored for the process. -/

/-- Rust `s.replace(['\n', '\t'], " ")`: each newline or tab character
becomes a single space. -/
def replaceNlTab (s : String) : String :=
  String.mk (s.data.map (fun c => if c = '\n' ∨ c = '\t' then ' ' else c))

/-- The argument-joining step shared by the Linux and macOS backends:
append `' '` to every argument, concatenate, pop the final character
(`String::pop`, modelled as dropping the last element of the character
sequence). -/
def joinArgs (cmd : List String) : String :=
  String.mk (String.join (cmd.map (fun x => x ++ " "))).data.dropLast

/-- Linux snapshot fields read by `Command::add`: the result of
`proc.curr_proc.cmdline()` (`none` when the read fails) and
`proc.curr_proc.stat().comm`. -/
structure LinuxProc where
  cmdline : Option (List String)
  comm : String

/-- The `base_content` computed by the Linux `Command::add`. -/
def linuxBase (p : LinuxProc) : String :=
  match p.cmdline with
  | some cmd =>
    if cmd ≠ [] then replaceNlTab (joinArgs cmd)
    else "[" ++ p.comm ++ "]"
  | none => p.comm

/-- Linux `Command::add`: (formatted value, raw value) stored for the
process. -/
def linuxAdd (abbr_path : Bool) (home : Option String) (p : LinuxProc) :
    String × String :=
  let base_content := linuxBase p
  (format_command base_content abbr_path home, base_content)

/-- macOS snapshot fields read by `Command::add`: `proc.curr_path`
with its `cmd` argument list. -/
structure MacosProc where
  curr_path : Option (List String)

/-- macOS `Command::add`: (formatted value, raw value); the raw value is
a clone of the formatted one and `format_command` is never called. -/
def macosAdd (p : MacosProc) : String × String :=
  let fmt_content :=
    match p.curr_path with
    | some cmd =>
      if cmd ≠ [] then replaceNlTab (joinArgs cmd)
      else ""
    | none => ""
  (fmt_content, fmt_content)

/-- Windows snapshot field read by `Command::add`. -/
structure WindowsProc where
  command : String

/-- Windows `Command::add`: both values are `proc.command`. -/
def windowsAdd (p : WindowsProc) : String × String :=
  (p.command, p.command)

/-- FreeBSD snapshot fields read by `Command::add`: the argument vector
and the result of `ptr_to_cstr(info.comm)` (`none` on failure). -/
structure FreebsdProc where
  arg : List String
  comm : Option String

/-- FreeBSD `Command::add`: (formatted value, raw value). -/
def freebsdAdd (p : FreebsdProc) : String × String :=
  let command :=
    if p.arg = [] then
      match p.comm with
      | some comm => "[" ++ comm ++ "]"
      | none => ""
    else
      p.arg.foldl (fun x arg => x ++ arg ++ " ") ""
  (command, command)

/-! ## Theme resolution (`src/util.rs`, `get_theme`)

The terminal interactions (`IsTerminal`, `termbg::latency`,
`termbg::theme`) are external effects, modelled as an explicit
environment: the three stream flags, the latency measurement
(`none` on failure, otherwise a duration in milliseconds) and the
probe as a function of the timeout it is given (`none` on failure). -/

inductive ConfigTheme
  | Auto
  | Dark
  | Light
deriving DecidableEq

inductive ArgThemeMode
  | Auto
  | Dark
  | Light
deriving DecidableEq

/-- `impl From<ArgThemeMode> for ConfigTheme`. -/
def argThemeToConfig (item : ArgThemeMode) : ConfigTheme :=
  match item with
  | ArgThemeMode.Auto => ConfigTheme.Auto
  | ArgThemeMode.Dark => ConfigTheme.Dark
  | ArgThemeMode.Light => ConfigTheme.Light

inductive TermbgTheme
  | Dark
  | Light
deriving DecidableEq

structure ThemeEnv where
  stdoutTerminal : Bool
  stderrTerminal : Bool
  stdinTerminal : Bool
  latency : Option Nat
  probe : Nat → Option TermbgTheme

/-- `util.rs::get_theme`: explicit override beats configuration; an
`Auto` result probes the terminal only when all three streams are
interactive, with timeout `max(2 × latency, 100 ms)`, and every failure
resolves to `Dark`. -/
def get_theme (optTheme : Option ArgThemeMode) (configTheme : ConfigTheme)
    (env : ThemeEnv) : ConfigTheme :=
  let theme :=
    match optTheme, configTheme with
    | some x, _ => argThemeToConfig x
    | none, x => x
  match theme with
  | ConfigTheme.Auto =>
    if env.stdoutTerminal && env.stderrTerminal && env.stdinTerminal then
      match env.latency with
      | some latency =>
        let minimum_timeout := 100
        let timeout := if minimum_timeout < latency * 2 then latency * 2 else minimum_timeout
        match env.probe timeout with
        | some TermbgTheme.Dark => ConfigTheme.Dark
        | some TermbgTheme.Light => ConfigTheme.Light
        | none => ConfigTheme.Dark
      | none => ConfigTheme.Dark
    else ConfigTheme.Dark
  | x => x

/-! ## Concrete instances used by the example parts of the claims -/

/-- A one-column set whose raw value for process 1 is `"XABCY"`. -/
def exampleColumn : Column :=
  column_of_raw (fun pid => if pid = 1 then some "XABCY" else none)

/-- An opening color escape sequence, `ESC [ 3 1 m`. -/
def escSeqOpen : List Char := [escChar, '[', '3', '1', 'm']

/-- Ten visible (width-1) characters. -/
def tenVisible : List Char := "0123456789".toList

/-- The first five of `tenVisible`. -/
def fiveVisible : List Char := "01234".toList

/-- A closing color escape sequence, `ESC [ 0 m`. -/
def escSeqClose : List Char := [escChar, '[', '0', 'm']

/-! ## Helper lemmas about argument joining -/

/-- `String.join` distributes over `::` (it is a fold of `++`). -/
theorem string_join_cons (x : String) (l : List String) :
    String.join (x :: l) = x ++ String.join l := by
  have h : ∀ (l : List String) (acc : String),
      l.foldl (· ++ ·) acc = acc ++ String.join l := by
    intro l
    induction l with
    | nil => intro acc; simp [String.join]
    | cons y l ih =>
      intro acc
      show (y :: l).foldl (· ++ ·) acc = acc ++ String.join (y :: l)
      have h1 : (y :: l).foldl (· ++ ·) acc = (acc ++ y) ++ String.join l := ih (acc ++ y)
      have h2 : String.join (y :: l) = ("" ++ y) ++ String.join l := ih ("" ++ y)
      rw [h1, h2]
      simp [String.append_assoc]
  have h1 := h l ("" ++ x)
  show (x :: l).foldl (· ++ ·) "" = _
  simp only [List.foldl_cons] at *
  rw [h1]
  simp

/-- Appending `' '` to every argument and concatenating produces the
single-space-separated join followed by one trailing space. -/
theorem join_map_space (rest : List String) :
    ∀ a : String,
      String.join ((a :: rest).map (fun x => x ++ " "))
        = String.intercalate " " (a :: rest) ++ " " := by
  induction rest with
  | nil =>
    intro a
    show String.join [a ++ " "] = _
    rw [string_join_cons]
    show a ++ " " ++ String.join [] = a ++ " "
    simp [String.join]
  | cons b rest ih =>
    intro a
    have h1 : String.join ((a :: b :: rest).map (fun x => x ++ " "))
        = (a ++ " ") ++ String.join ((b :: rest).map (fun x => x ++ " ")) := by
      simpa using string_join_cons (a ++ " ") ((b :: rest).map (fun x => x ++ " "))
    have h2 : String.join (((a ++ " " ++ b) :: rest).map (fun x => x ++ " "))
        = String.intercalate " " ((a ++ " " ++ b) :: rest) ++ " " := ih (a ++ " " ++ b)
    have h3 : String.join (((a ++ " " ++ b) :: rest).map (fun x => x ++ " "))
        = (a ++ " " ++ b ++ " ") ++ String.join (rest.map (fun x => x ++ " ")) := by
      simpa using string_join_cons (a ++ " " ++ b ++ " ") (rest.map (fun x => x ++ " "))
    have h4 : String.join ((b :: rest).map (fun x => x ++ " "))
        = (b ++ " ") ++ String.join (rest.map (fun x => x ++ " ")) := by
      simpa using string_join_cons (b ++ " ") (rest.map (fun x => x ++ " "))
    have h5 : String.intercalate " " (a :: b :: rest)
        = String.intercalate " " ((a ++ " " ++ b) :: rest) := rfl
    rw [h1, h4, h5, ← h2, h3]
    simp [String.append_assoc]

/-- The Linux/macOS join (append-space, concatenate, pop) equals the
single-space-separated join for a non-empty argument list. -/
theorem joinArgs_eq_intercalate (a : String) (rest : List String) :
    joinArgs (a :: rest) = String.intercalate " " (a :: rest) := by
  have h := join_map_space rest a
  show String.mk (String.join ((a :: rest).map (fun x => x ++ " "))).data.dropLast
      = String.intercalate " " (a :: rest)
  rw [h]
  cases hi : String.intercalate " " (a :: rest) with
  | mk d => simp

/-- The FreeBSD accumulation loop equals the single-space join with a
trailing space. -/
theorem freebsd_fold_eq_intercalate (a : String) (rest : List String) :
    (a :: rest).foldl (fun x arg => x ++ arg ++ " ") ""
      = String.intercalate " " (a :: rest) ++ " " := by
  have h : ∀ (l : List String) (acc : String),
      l.foldl (fun x arg => x ++ arg ++ " ") acc
        = acc ++ String.join (l.map (fun x => x ++ " ")) := by
    intro l
    induction l with
    | nil => intro acc; simp [String.join]
    | cons y l ih =>
      intro acc
      show (y :: l).foldl (fun x arg => x ++ arg ++ " ") acc = _
      have h1 := ih (acc ++ y ++ " ")
      simp only [List.foldl_cons] at h1 ⊢
      rw [h1]
      simp only [List.map_cons, string_join_cons]
      simp [String.append_assoc]
  rw [h (a :: rest) "", join_map_space rest a]
  simp

/-! ## Helper lemmas about `truncate` -/

/-- One loop step when the automaton is (or enters) the escape state. -/
theorem truncateGo_cons_esc (wOf : Char → Nat) (width : Nat) (c : Char)
    (rest : List Char) (total : Nat) (escape : Bool) (buf : List Char)
    (h : (if c = escChar then true else escape) = true) :
    truncateGo wOf width (c :: rest) total escape buf
      = truncateGo wOf width rest total (if c = 'm' then false else true) (buf ++ [c]) := by
  simp [truncateGo, h]

/-- One loop step when the budget would be exceeded: break with the
accumulated output. -/
theorem truncateGo_cons_break (wOf : Char → Nat) (width : Nat) (c : Char)
    (rest : List Char) (total : Nat) (escape : Bool) (buf : List Char)
    (h : (if c = escChar then true else escape) = false)
    (hw : width < total + wOf c) :
    truncateGo wOf width (c :: rest) total escape buf = some buf := by
  simp [truncateGo, h, hw]

/-- One loop step for a normal character that still fits. -/
theorem truncateGo_cons_push (wOf : Char → Nat) (width : Nat) (c : Char)
    (rest : List Char) (total : Nat) (escape : Bool) (buf : List Char)
    (h : (if c = escChar then true else escape) = false)
    (hw : ¬ width < total + wOf c) :
    truncateGo wOf width (c :: rest) total escape buf
      = truncateGo wOf width rest (total + wOf c) false (buf ++ [c]) := by
  simp [truncateGo, h, hw]

/-- One width step in the escape state. -/
theorem displayWidthGo_cons_esc (wOf : Char → Nat) (c : Char)
    (rest : List Char) (escape : Bool)
    (h : (if c = escChar then true else escape) = true) :
    displayWidthGo wOf (c :: rest) escape
      = displayWidthGo wOf rest (if c = 'm' then false else true) := by
  simp [displayWidthGo, h]

/-- One width step for a normal character. -/
theorem displayWidthGo_cons_norm (wOf : Char → Nat) (c : Char)
    (rest : List Char) (escape : Bool)
    (h : (if c = escChar then true else escape) = false) :
    displayWidthGo wOf (c :: rest) escape
      = wOf c + displayWidthGo wOf rest false := by
  simp [displayWidthGo, h]

/-- The truncation loop only appends to its accumulated output. -/
theorem truncateGo_buf (wOf : Char → Nat) (width : Nat) :
    ∀ (rest : List Char) (total : Nat) (escape : Bool) (buf : List Char),
      truncateGo wOf width rest total escape buf
        = Option.map (buf ++ ·) (truncateGo wOf width rest total escape []) := by
  intro rest
  induction rest with
  | nil => intros; rfl
  | cons c rest ih =>
    intro total escape buf
    cases hB : (if c = escChar then true else escape) with
    | true =>
      rw [truncateGo_cons_esc wOf width c rest total escape buf hB,
          truncateGo_cons_esc wOf width c rest total escape [] hB,
          ih total (if c = 'm' then false else true) (buf ++ [c]),
          ih total (if c = 'm' then false else true) ([] ++ [c])]
      cases truncateGo wOf width rest total (if c = 'm' then false else true) [] <;> simp
    | false =>
      by_cases hw : width < total + wOf c
      · rw [truncateGo_cons_break wOf width c rest total escape buf hB hw,
            truncateGo_cons_break wOf width c rest total escape [] hB hw]
        simp
      · rw [truncateGo_cons_push wOf width c rest total escape buf hB hw,
            truncateGo_cons_push wOf width c rest total escape [] hB hw,
            ih (total + wOf c) false (buf ++ [c]),
            ih (total + wOf c) false ([] ++ [c])]
        cases truncateGo wOf width rest (total + wOf c) false [] <;> simp

/-- If the loop finishes without breaking, the remaining display width
fits in the remaining budget. -/
theorem truncateGo_none_le (wOf : Char → Nat) (width : Nat) :
    ∀ (rest : List Char) (total : Nat) (escape : Bool), total ≤ width →
      truncateGo wOf width rest total escape [] = none →
      total + displayWidthGo wOf rest escape ≤ width := by
  intro rest
  induction rest with
  | nil => intro total escape h _; simpa [displayWidthGo]
  | cons c rest ih =>
    intro total escape h hnone
    cases hB : (if c = escChar then true else escape) with
    | true =>
      rw [truncateGo_cons_esc wOf width c rest total escape [] hB,
          truncateGo_buf wOf width rest total (if c = 'm' then false else true) ([] ++ [c])]
        at hnone
      simp only [Option.map_eq_none'] at hnone
      rw [displayWidthGo_cons_esc wOf c rest escape hB]
      exact ih total (if c = 'm' then false else true) h hnone
    | false =>
      by_cases hw : width < total + wOf c
      · rw [truncateGo_cons_break wOf width c rest total escape [] hB hw] at hnone
        simp at hnone
      · rw [truncateGo_cons_push wOf width c rest total escape [] hB hw,
            truncateGo_buf wOf width rest (total + wOf c) false ([] ++ [c])] at hnone
        simp only [Option.map_eq_none'] at hnone
        have h' : total + wOf c ≤ width := Nat.le_of_not_lt hw
        have hrec := ih (total + wOf c) false h' hnone
        rw [displayWidthGo_cons_norm wOf c rest escape hB]
        omega

/-- If the loop breaks, the output accumulated so far is a leading part
of the input and its display width fits in the remaining budget. -/
theorem truncateGo_some_le (wOf : Char → Nat) (width : Nat) :
    ∀ (rest : List Char) (total : Nat) (escape : Bool) (out : List Char),
      total ≤ width →
      truncateGo wOf width rest total escape [] = some out →
      (total + displayWidthGo wOf out escape ≤ width ∧ ∃ t, out ++ t = rest) := by
  intro rest
  induction rest with
  | nil => intro total escape out _ hsome; simp [truncateGo] at hsome
  | cons c rest ih =>
    intro total escape out h hsome
    cases hB : (if c = escChar then true else escape) with
    | true =>
      rw [truncateGo_cons_esc wOf width c rest total escape [] hB,
          truncateGo_buf wOf width rest total (if c = 'm' then false else true) ([] ++ [c])]
        at hsome
      rw [Option.map_eq_some'] at hsome
      obtain ⟨out', hinner, hout⟩ := hsome
      obtain ⟨h1, t, ht⟩ := ih total (if c = 'm' then false else true) out' h hinner
      subst hout
      refine ⟨?_, t, ?_⟩
      · rw [show ([] ++ [c]) ++ out' = c :: out' by simp,
            displayWidthGo_cons_esc wOf c out' escape hB]
        exact h1
      · simp [ht]
    | false =>
      by_cases hw : width < total + wOf c
      · rw [truncateGo_cons_break wOf width c rest total escape [] hB hw] at hsome
        have hout : out = [] := by
          cases hsome; rfl
        subst hout
        exact ⟨by simpa [displayWidthGo] using h, c :: rest, rfl⟩
      · rw [truncateGo_cons_push wOf width c rest total escape [] hB hw,
            truncateGo_buf wOf width rest (total + wOf c) false ([] ++ [c])] at hsome
        rw [Option.map_eq_some'] at hsome
        obtain ⟨out', hinner, hout⟩ := hsome
        have h' : total + wOf c ≤ width := Nat.le_of_not_lt hw
        obtain ⟨h1, t, ht⟩ := ih (total + wOf c) false out' h' hinner
        subst hout
        refine ⟨?_, t, ?_⟩
        · rw [show ([] ++ [c]) ++ out' = c :: out' by simp,
              displayWidthGo_cons_norm wOf c out' escape hB]
          omega
        · simp [ht]

/-- Rerunning the loop from the same starting state on its own break
output never breaks again. -/
theorem truncateGo_some_refits (wOf : Char → Nat) (width : Nat) :
    ∀ (rest : List Char) (total : Nat) (escape : Bool) (out : List Char),
      truncateGo wOf width rest total escape [] = some out →
      truncateGo wOf width out total escape [] = none := by
  intro rest
  induction rest with
  | nil => intro total escape out hsome; simp [truncateGo] at hsome
  | cons c rest ih =>
    intro total escape out hsome
    cases hB : (if c = escChar then true else escape) with
    | true =>
      rw [truncateGo_cons_esc wOf width c rest total escape [] hB,
          truncateGo_buf wOf width rest total (if c = 'm' then false else true) ([] ++ [c])]
        at hsome
      rw [Option.map_eq_some'] at hsome
      obtain ⟨out', hinner, hout⟩ := hsome
      have hnone := ih total (if c = 'm' then false else true) out' hinner
      subst hout
      rw [show ([] ++ [c]) ++ out' = c :: out' by simp,
          truncateGo_cons_esc wOf width c out' total escape [] hB,
          truncateGo_buf wOf width out' total (if c = 'm' then false else true) ([] ++ [c]),
          hnone]
      rfl
    | false =>
      by_cases hw : width < total + wOf c
      · rw [truncateGo_cons_break wOf width c rest total escape [] hB hw] at hsome
        have hout : out = [] := by
          cases hsome; rfl
        subst hout
        rfl
      · rw [truncateGo_cons_push wOf width c rest total escape [] hB hw,
            truncateGo_buf wOf width rest (total + wOf c) false ([] ++ [c])] at hsome
        rw [Option.map_eq_some'] at hsome
        obtain ⟨out', hinner, hout⟩ := hsome
        have hnone := ih (total + wOf c) false out' hinner
        subst hout
        rw [show ([] ++ [c]) ++ out' = c :: out' by simp,
            truncateGo_cons_push wOf width c out' total escape [] hB hw,
            truncateGo_buf wOf width out' (total + wOf c) false ([] ++ [c]),
            hnone]
        rfl

/-- If the remaining display width fits in the remaining budget, the
loop finishes without breaking. -/
theorem truncateGo_fits_none (wOf : Char → Nat) (width : Nat) :
    ∀ (rest : List Char) (total : Nat) (escape : Bool) (buf : List Char),
      total + displayWidthGo wOf rest escape ≤ width →
      truncateGo wOf width rest total escape buf = none := by
  intro rest
  induction rest with
  | nil => intros; rfl
  | cons c rest ih =>
    intro total escape buf h
    cases hB : (if c = escChar then true else escape) with
    | true =>
      rw [displayWidthGo_cons_esc wOf c rest escape hB] at h
      rw [truncateGo_cons_esc wOf width c rest total escape buf hB]
      exact ih total (if c = 'm' then false else true) (buf ++ [c]) h
    | false =>
      rw [displayWidthGo_cons_norm wOf c rest escape hB] at h
      have hw : ¬ width < total + wOf c := by omega
      rw [truncateGo_cons_push wOf width c rest total escape buf hB hw]
      exact ih (total + wOf c) false (buf ++ [c]) (by omega)


/-! ## Claim theorems -/

/-- C1 (counterexample): the claimed uniform `"[" + short_name + "]"`
fallback is false on the code: a Linux snapshot whose argument list is
unavailable (cmdline read fails) stores the bare short name `"sh"`,
and a macOS snapshot with no command data stores the empty string;
neither equals a bracketed short name. -/
theorem command_fallback_not_uniform :
    (linuxAdd false none { cmdline := none, comm := "sh" }).2 = "sh" ∧
    (macosAdd { curr_path := none }).2 = "" ∧
    "sh" ≠ "[sh]" ∧ ("" : String) ≠ "[sh]" := by
  refine ⟨rfl, rfl, ?_, ?_⟩ <;> decide

/-- C1 (amended): the no-data fallback differs per backend. Linux
stores `"[" + comm + "]"` only when the argument list reads back empty,
and the bare `comm` when the read fails; macOS stores the empty string;
Windows always stores the snapshot's command string; FreeBSD stores
`"[" + comm + "]"` when the argument list is empty and `comm` is
readable, and the empty string otherwise. -/
theorem command_fallback_by_backend :
    ∀ (abbr : Bool) (home : Option String) (comm : String),
      (linuxAdd abbr home { cmdline := some [], comm := comm }).2 = "[" ++ comm ++ "]" ∧
      (linuxAdd abbr home { cmdline := none, comm := comm }).2 = comm ∧
      (macosAdd { curr_path := none }).2 = "" ∧
      (macosAdd { curr_path := some [] }).2 = "" ∧
      (freebsdAdd { arg := [], comm := some comm }).2 = "[" ++ comm ++ "]" ∧
      (freebsdAdd { arg := [], comm := none }).2 = "" ∧
      (windowsAdd { command := comm }).2 = comm :=
  fun _ _ _ => ⟨rfl, rfl, rfl, rfl, rfl, rfl, rfl⟩

/-- C2: at the search-engine layer NAND combines exactly like AND and
NOR exactly like OR, for both partial and exact search, over any column
set, pid, keyword list and case mode (no negation step exists). -/
theorem nand_matches_and_nor_matches_or :
    ∀ (columns : List Column) (pid : Int) (keyword : List String)
      (cse : ConfigSearchCase),
      find_partial columns pid keyword ConfigSearchLogic.Nand cse
        = find_partial columns pid keyword ConfigSearchLogic.And cse ∧
      find_partial columns pid keyword ConfigSearchLogic.Nor cse
        = find_partial columns pid keyword ConfigSearchLogic.Or cse ∧
      find_exact columns pid keyword ConfigSearchLogic.Nand cse
        = find_exact columns pid keyword ConfigSearchLogic.And cse ∧
      find_exact columns pid keyword ConfigSearchLogic.Nor cse
        = find_exact columns pid keyword ConfigSearchLogic.Or cse :=
  fun _ _ _ _ => ⟨rfl, rfl, rfl, rfl⟩

/-- C3 (counterexample): the claimed uniform joining is false on the
FreeBSD backend: the argument list `["a", "b c"]` is stored as
`"a b c "` — with a trailing separator — not `"a b c"`. -/
theorem freebsd_join_keeps_trailing_space :
    (freebsdAdd { arg := ["a", "b c"], comm := some "sh" }).2 = "a b c " ∧
    "a b c " ≠ "a b c" := by
  refine ⟨rfl, ?_⟩; decide

/-- C3 (amended): on Linux and macOS a non-empty argument list is
stored single-space-joined with no trailing separator and with every
newline/tab replaced by a space (in particular `["a","b c"]` yields
`"a b c"`); on FreeBSD the join keeps a trailing space and performs no
newline/tab replacement. -/
theorem args_join_by_backend :
    ∀ (a : String) (rest : List String) (abbr : Bool) (home : Option String)
      (comm : String),
      (linuxAdd abbr home { cmdline := some (a :: rest), comm := comm }).2
        = replaceNlTab (String.intercalate " " (a :: rest)) ∧
      (macosAdd { curr_path := some (a :: rest) }).2
        = replaceNlTab (String.intercalate " " (a :: rest)) ∧
      (linuxAdd abbr home { cmdline := some ["a", "b c"], comm := comm }).2
        = "a b c" ∧
      (freebsdAdd { arg := a :: rest, comm := some comm }).2
        = String.intercalate " " (a :: rest) ++ " " := by
  intro a rest abbr home comm
  refine ⟨?_, ?_, ?_, ?_⟩
  · show replaceNlTab (joinArgs (a :: rest)) = _
    rw [joinArgs_eq_intercalate]
  · show replaceNlTab (joinArgs (a :: rest)) = _
    rw [joinArgs_eq_intercalate]
  · show replaceNlTab (joinArgs ["a", "b c"]) = "a b c"
    decide
  · show (a :: rest).foldl (fun x arg => x ++ arg ++ " ") "" = _
    exact freebsd_fold_eq_intercalate a rest

/-- C4: the raw value stored by the Linux `add` never depends on the
abbreviation flag (or on `HOME`); abbreviation touches only the
formatted value. In particular, for the snapshot whose raw command is
`/home/alice/bin/tool arg`, with abbreviation on and
`HOME=/home/alice`, the formatted value is `~/bin/tool arg` while the
raw value is stored unchanged. -/
theorem raw_value_independent_of_abbreviation :
    (∀ (abbr abbr' : Bool) (home home' : Option String) (p : LinuxProc),
       (linuxAdd abbr home p).2 = (linuxAdd abbr' home' p).2) ∧
    format_command "/home/alice/bin/tool arg" true (some "/home/alice")
      = "~/bin/tool arg" ∧
    (linuxAdd true (some "/home/alice")
        { cmdline := some ["/home/alice/bin/tool", "arg"], comm := "tool" }).1
      = "~/bin/tool arg" ∧
    (linuxAdd true (some "/home/alice")
        { cmdline := some ["/home/alice/bin/tool", "arg"], comm := "tool" }).2
      = "/home/alice/bin/tool arg" := by
  refine ⟨fun _ _ _ _ _ => rfl, ?_, ?_, ?_⟩ <;> decide

/-- C5 (counterexample): store-path shortening of
`/nix/store/abcdef123-foo-1.0/bin/foo` does not resolve to `foo`: the
final path component `foo` contains neither a hyphen nor a `/bin/`
segment, so the fallback rendering is taken. -/
theorem nix_store_example_not_plain_foo :
    truncate_nix_store_path "/nix/store/abcdef123-foo-1.0/bin/foo" ≠ "foo" := by
  decide

/-- C5 (amended): store-path shortening of
`/nix/store/abcdef123-foo-1.0/bin/foo` resolves to the store root
followed by an ellipsis and the final filename, `/nix/store/...foo`
(the `/bin/` branch cannot fire on a single path component). -/
theorem nix_store_example_resolves_with_root_ellipsis :
    truncate_nix_store_path "/nix/store/abcdef123-foo-1.0/bin/foo"
      = "/nix/store/...foo" := by
  decide

/-- C6: the case modes determine folding per keyword — Insensitive
always folds, Sensitive never folds, Smart folds exactly when the
keyword equals its ASCII-lowercased form (all-lowercase keyword); and
keyword `"abc"` against the single column value `"XABCY"` matches
partially under Insensitive but not under Sensitive. -/
theorem search_case_modes :
    (∀ kw : String, ignore_case_of ConfigSearchCase.Insensitive kw = true) ∧
    (∀ kw : String, ignore_case_of ConfigSearchCase.Sensitive kw = false) ∧
    (∀ kw : String,
       ignore_case_of ConfigSearchCase.Smart kw = true ↔ kw = to_ascii_lowercase kw) ∧
    find_partial [exampleColumn] 1 ["abc"]
      ConfigSearchLogic.Or ConfigSearchCase.Insensitive = true ∧
    find_partial [exampleColumn] 1 ["abc"]
      ConfigSearchLogic.Or ConfigSearchCase.Sensitive = false := by
  refine ⟨fun _ => rfl, fun _ => rfl, fun kw => ?_, by decide, by decide⟩
  simp [ignore_case_of]

/-- C7: for every width function, string and width, the output of
`truncate` is a leading part of the input — so every byte, escape
sequences included, is carried over verbatim up to the cut — and its
display width excluding escape bytes never exceeds the budget; in
particular an escape sequence wrapping 10 visible characters truncated
to width 5 yields the escape sequence intact followed by exactly the
first 5 visible characters, for a consumed width of 5. -/
theorem truncate_escape_preserved_width_bounded :
    (∀ (wOf : Char → Nat) (s : List Char) (w : Nat),
       (∃ t, truncate wOf s w ++ t = s) ∧
       displayWidth wOf (truncate wOf s w) ≤ w) ∧
    truncate charWidth (escSeqOpen ++ tenVisible ++ escSeqClose) 5
      = escSeqOpen ++ fiveVisible ∧
    displayWidth charWidth (escSeqOpen ++ fiveVisible) = 5 := by
  refine ⟨?_, by decide, by decide⟩
  intro wOf s w
  unfold truncate displayWidth
  cases h : truncateGo wOf w s 0 false [] with
  | none =>
    refine ⟨⟨[], by simp⟩, ?_⟩
    simpa using truncateGo_none_le wOf w s 0 false (Nat.zero_le w) h
  | some out =>
    obtain ⟨h1, t, ht⟩ := truncateGo_some_le wOf w s 0 false out (Nat.zero_le w) h
    exact ⟨⟨t, ht⟩, by simpa using h1⟩

/-- C8: `truncate` is idempotent — truncating its own output at the
same width changes nothing — and a string whose display width already
fits within the width is returned unchanged. -/
theorem truncate_idempotent :
    ∀ (wOf : Char → Nat) (s : List Char) (w : Nat),
      truncate wOf (truncate wOf s w) w = truncate wOf s w ∧
      (displayWidth wOf s ≤ w → truncate wOf s w = s) := by
  intro wOf s w
  constructor
  · cases h : truncateGo wOf w s 0 false [] with
    | none =>
      have hs : truncate wOf s w = s := by unfold truncate; rw [h]; rfl
      rw [hs]
      exact hs
    | some out =>
      have hs : truncate wOf s w = out := by unfold truncate; rw [h]; rfl
      rw [hs]
      unfold truncate
      rw [truncateGo_some_refits wOf w s 0 false out h]
      rfl
  · intro hfit
    have h : truncateGo wOf w s 0 false [] = none :=
      truncateGo_fits_none wOf w s 0 false [] (by simpa [displayWidth] using hfit)
    unfold truncate
    rw [h]
    rfl

/-- C8 (witness): a concrete string that fits is returned unchanged,
and truncation at that width is idempotent on it. -/
theorem truncate_idempotent_witness :
    truncate charWidth ('a' :: 'b' :: []) 5 = 'a' :: 'b' :: [] :=
  (truncate_idempotent charWidth ('a' :: 'b' :: []) 5).2 (by decide)

/-- C9: with Auto theme (no override, configuration Auto), resolution
is Dark whenever any of the three streams is not a terminal — for every
latency and probe behaviour, so without consulting the probe — and Dark
whenever the latency measurement or the probe fails; a successful probe
response maps Dark to Dark and Light to Light. -/
theorem theme_auto_resolution :
    (∀ (o e i : Bool) (lat : Option Nat) (probe : Nat → Option TermbgTheme),
       (o && e && i) = false →
       get_theme none ConfigTheme.Auto
         { stdoutTerminal := o, stderrTerminal := e, stdinTerminal := i
           latency := lat, probe := probe } = ConfigTheme.Dark) ∧
    (∀ probe : Nat → Option TermbgTheme,
       get_theme none ConfigTheme.Auto
         { stdoutTerminal := true, stderrTerminal := true, stdinTerminal := true
           latency := none, probe := probe } = ConfigTheme.Dark) ∧
    (∀ lat : Nat,
       get_theme none ConfigTheme.Auto
         { stdoutTerminal := true, stderrTerminal := true, stdinTerminal := true
           latency := some lat, probe := fun _ => none } = ConfigTheme.Dark) ∧
    (∀ lat : Nat,
       get_theme none ConfigTheme.Auto
         { stdoutTerminal := true, stderrTerminal := true, stdinTerminal := true
           latency := some lat, probe := fun _ => some TermbgTheme.Dark }
         = ConfigTheme.Dark) ∧
    (∀ lat : Nat,
       get_theme none ConfigTheme.Auto
         { stdoutTerminal := true, stderrTerminal := true, stdinTerminal := true
           latency := some lat, probe := fun _ => some TermbgTheme.Light }
         = ConfigTheme.Light) := by
  refine ⟨?_, fun _ => rfl, fun _ => rfl, fun _ => rfl, fun _ => rfl⟩
  intro o e i lat probe h
  simp [get_theme, h]

/-- C9 (witness): a concrete non-interactive stream combination — with
a live latency and a Light-answering probe — still resolves to Dark. -/
theorem theme_auto_resolution_witness :
    get_theme none ConfigTheme.Auto
      { stdoutTerminal := false, stderrTerminal := true, stdinTerminal := true
        latency := some 3, probe := fun _ => some TermbgTheme.Light }
      = ConfigTheme.Dark :=
  theme_auto_resolution.1 false true true (some 3)
    (fun _ => some TermbgTheme.Light) rfl

/-- C10: with an empty keyword list both search functions return the
initial accumulator untouched: true for AND and NAND, false for OR and
NOR, for every column set, pid and case mode. -/
theorem find_empty_keywords_initial_accumulator :
    ∀ (columns : List Column) (pid : Int) (cse : ConfigSearchCase),
      find_partial columns pid [] ConfigSearchLogic.And cse = true ∧
      find_partial columns pid [] ConfigSearchLogic.Nand cse = true ∧
      find_partial columns pid [] ConfigSearchLogic.Or cse = false ∧
      find_partial columns pid [] ConfigSearchLogic.Nor cse = false ∧
      find_exact columns pid [] ConfigSearchLogic.And cse = true ∧
      find_exact columns pid [] ConfigSearchLogic.Nand cse = true ∧
      find_exact columns pid [] ConfigSearchLogic.Or cse = false ∧
      find_exact columns pid [] ConfigSearchLogic.Nor cse = false :=
  fun _ _ _ => ⟨rfl, rfl, rfl, rfl, rfl, rfl, rfl, rfl⟩

end Procs
